import Mathlib

/-!
Verification of the piecewise-flat forward-curve library `fms_pwflat.h`
(namespace `fms::pwflat`) against its specification.

Modelling conventions (shallow embedding):

* The scalar types `T` (times) and `F` (rates) are both modelled as `ℚ`
  (the source instantiates them at `double`; the properties checked here are
  the exact-arithmetic ones).
* A possibly-undefined scalar is an `Option ℚ`; `none` models the quiet-NaN
  sentinel `NaN<F>()`.  IEEE NaN propagation through `+`, `-`, `*`, `/`,
  unary `-` and `exp` is modelled by the strict `Option` arithmetic below
  (`none` combined with anything gives `none`).
* `exp` is kept abstract as a parameter `e : ℚ → ℚ` of the functions that
  use it (`discount` and everything built on it); no claim depends on
  analytic properties of `exp`.
* A raw array `(n, pointer)` pair is modelled as a `List ℚ` whose length is
  `n`; in-bounds reads `p[i]` become `l.getD i 0`.  Where a claim is about
  bounds safety itself, separate access-checking definitions mirror every
  read the source performs.
-/

namespace fms

namespace pwflat

/-- NaN-propagating addition on possibly-undefined scalars. -/
def oAdd : Option ℚ → Option ℚ → Option ℚ
  | some a, some b => some (a + b)
  | _, _ => none

/-- NaN-propagating subtraction. -/
def oSub : Option ℚ → Option ℚ → Option ℚ
  | some a, some b => some (a - b)
  | _, _ => none

/-- NaN-propagating multiplication (`NaN * 0 = NaN`, as for IEEE doubles). -/
def oMul : Option ℚ → Option ℚ → Option ℚ
  | some a, some b => some (a * b)
  | _, _ => none

/-- NaN-propagating division. -/
def oDiv : Option ℚ → Option ℚ → Option ℚ
  | some a, some b => some (a / b)
  | _, _ => none

/-- NaN-propagating negation. -/
def oNeg : Option ℚ → Option ℚ
  | some a => some (-a)
  | none => none

/-- NaN-propagating application of the (abstract) exponential `e`. -/
def oExp (e : ℚ → ℚ) : Option ℚ → Option ℚ
  | some a => some (e a)
  | none => none

@[simp] lemma oAdd_some_some (a b : ℚ) : oAdd (some a) (some b) = some (a + b) := rfl

@[simp] lemma oAdd_none_left (x : Option ℚ) : oAdd none x = none := by cases x <;> rfl

@[simp] lemma oAdd_none_right (x : Option ℚ) : oAdd x none = none := by cases x <;> rfl

@[simp] lemma oSub_some_some (a b : ℚ) : oSub (some a) (some b) = some (a - b) := rfl

@[simp] lemma oSub_none_left (x : Option ℚ) : oSub none x = none := by cases x <;> rfl

@[simp] lemma oSub_none_right (x : Option ℚ) : oSub x none = none := by cases x <;> rfl

@[simp] lemma oMul_some_some (a b : ℚ) : oMul (some a) (some b) = some (a * b) := rfl

@[simp] lemma oMul_none_left (x : Option ℚ) : oMul none x = none := by cases x <;> rfl

@[simp] lemma oMul_none_right (x : Option ℚ) : oMul x none = none := by cases x <;> rfl

@[simp] lemma oDiv_some_some (a b : ℚ) : oDiv (some a) (some b) = some (a / b) := rfl

@[simp] lemma oDiv_none_left (x : Option ℚ) : oDiv none x = none := by cases x <;> rfl

@[simp] lemma oDiv_none_right (x : Option ℚ) : oDiv x none = none := by cases x <;> rfl

@[simp] lemma oNeg_some (a : ℚ) : oNeg (some a) = some (-a) := rfl

@[simp] lemma oNeg_none : oNeg none = none := rfl

@[simp] lemma oExp_some (e : ℚ → ℚ) (a : ℚ) : oExp e (some a) = some (e a) := rfl

@[simp] lemma oExp_none (e : ℚ → ℚ) : oExp e none = none := rfl

/-- Finite NaN-propagating sum (`some 0` for the empty list). -/
def oSum : List (Option ℚ) → Option ℚ
  | [] => some 0
  | a :: l => oAdd a (oSum l)

@[simp] lemma oSum_nil : oSum [] = some 0 := rfl

@[simp] lemma oSum_cons (a : Option ℚ) (l : List (Option ℚ)) :
    oSum (a :: l) = oAdd a (oSum l) := rfl

/-- Source `monotonic(b, e)` (fms_pwflat.h:29-40): true iff
`std::adjacent_find(b, e, t0 >= t1)` finds no adjacent non-increasing pair,
scanning left to right and stopping at the first violation. -/
def monotonic : List ℚ → Bool
  | [] => true
  | [_] => true
  | x :: y :: l => if x ≥ y then false else monotonic (y :: l)

/-- Index of the first element of `v` that is `≥ x` (`v.length` if none):
the value `std::lower_bound` is specified to deliver on a partitioned range.
Used as the specification-side description of the searches in the source. -/
def firstGe (x : ℚ) : List ℚ → Nat
  | [] => 0
  | a :: l => if x ≤ a then 0 else firstGe x l + 1

/-- The binary search performed by `std::lower_bound` (libstdc++): window
`[first, first + len)` into `v`, halving `len` each step.  This is what the
source actually executes, whether or not `v` is sorted. -/
def lbAux (v : List ℚ) (x : ℚ) (first len : Nat) : Nat :=
  if h : len = 0 then first
  else if v.getD (first + len / 2) 0 < x then
    lbAux v x (first + len / 2 + 1) (len - len / 2 - 1)
  else
    lbAux v x first (len / 2)
termination_by len
decreasing_by all_goals omega

/-- Source expression `std::lower_bound(v.begin(), v.end(), x) - v.begin()` as an index. -/
def lower_bound (v : List ℚ) (x : ℚ) : Nat := lbAux v x 0 v.length

@[simp] lemma firstGe_nil (x : ℚ) : firstGe x [] = 0 := rfl

lemma firstGe_le_length (x : ℚ) : ∀ v : List ℚ, firstGe x v ≤ v.length := by
  intro v
  induction v with
  | nil => simp [firstGe]
  | cons a l ih =>
    by_cases h : x ≤ a
    · simp [firstGe, h]
    · simp only [firstGe, if_neg h, List.length_cons]
      omega

lemma firstGe_lt (x : ℚ) : ∀ (v : List ℚ) (j : Nat), j < firstGe x v → v.getD j 0 < x := by
  intro v
  induction v with
  | nil => intro j hj; simp [firstGe] at hj
  | cons a l ih =>
    intro j hj
    by_cases h : x ≤ a
    · simp [firstGe, h] at hj
    · rw [firstGe, if_neg h] at hj
      cases j with
      | zero => exact lt_of_not_le h
      | succ k => exact ih k (by omega)

lemma firstGe_ge (x : ℚ) :
    ∀ v : List ℚ, firstGe x v < v.length → x ≤ v.getD (firstGe x v) 0 := by
  intro v
  induction v with
  | nil => intro h; simp [firstGe] at h
  | cons a l ih =>
    intro hlen
    by_cases h : x ≤ a
    · rw [firstGe, if_pos h]; exact h
    · rw [firstGe, if_neg h]
      rw [firstGe, if_neg h, List.length_cons] at hlen
      exact ih (by omega)

lemma firstGe_eq_of (x : ℚ) (v : List ℚ) (k : Nat) (hk : k ≤ v.length)
    (h1 : ∀ j, j < k → v.getD j 0 < x) (h2 : k < v.length → x ≤ v.getD k 0) :
    firstGe x v = k := by
  rcases lt_trichotomy (firstGe x v) k with h | h | h
  · have hlt : firstGe x v < v.length := lt_of_lt_of_le h hk
    exact absurd (firstGe_ge x v hlt) (not_le.mpr (h1 _ h))
  · exact h
  · have hlt : k < v.length := lt_of_lt_of_le h (firstGe_le_length x v)
    exact absurd (h2 hlt) (not_le.mpr (firstGe_lt x v k h))

/-- Every in-bounds `getD` is a member of the list. -/
lemma getD_mem : ∀ (l : List ℚ) (k : Nat), k < l.length → l.getD k 0 ∈ l := by
  intro l
  induction l with
  | nil => intro k hk; simp at hk
  | cons a l ih =>
    intro k hk
    cases k with
    | zero => simp
    | succ m =>
      simp only [List.getD_cons_succ]
      exact List.mem_cons_of_mem a (ih m (by simpa using hk))

/-- Reading with `getD` is monotone on a `≤`-sorted list. -/
lemma sorted_getD_le (v : List ℚ) (hs : v.Sorted (· ≤ ·)) :
    ∀ i j : Nat, i ≤ j → j < v.length → v.getD i 0 ≤ v.getD j 0 := by
  induction v with
  | nil => intro i j _ hj; simp at hj
  | cons a l ih =>
    rw [List.sorted_cons] at hs
    intro i j hij hj
    cases i with
    | zero =>
      cases j with
      | zero => exact le_refl _
      | succ m =>
        simp only [List.getD_cons_zero, List.getD_cons_succ]
        exact hs.1 _ (getD_mem l m (by simpa using hj))
    | succ k =>
      cases j with
      | zero => omega
      | succ m =>
        simp only [List.getD_cons_succ]
        exact ih hs.2 k m (by omega) (by simpa using hj)

/-- Reading with `getD` is strictly monotone on a `<`-sorted list. -/
lemma sorted_getD_lt (v : List ℚ) (hs : v.Sorted (· < ·)) :
    ∀ i j : Nat, i < j → j < v.length → v.getD i 0 < v.getD j 0 := by
  induction v with
  | nil => intro i j _ hj; simp at hj
  | cons a l ih =>
    rw [List.sorted_cons] at hs
    intro i j hij hj
    cases i with
    | zero =>
      cases j with
      | zero => omega
      | succ m =>
        simp only [List.getD_cons_zero, List.getD_cons_succ]
        exact hs.1 _ (getD_mem l m (by simpa using hj))
    | succ k =>
      cases j with
      | zero => omega
      | succ m =>
        simp only [List.getD_cons_succ]
        exact ih hs.2 k m (by omega) (by simpa using hj)

/-- Boundary characterisation of the binary search `lbAux` on a sorted list:
it lands exactly on the frontier between the elements `< x` and the rest. -/
lemma lbAux_spec (v : List ℚ) (x : ℚ) (hs : v.Sorted (· ≤ ·)) :
    ∀ len first, first + len ≤ v.length →
      (∀ j, j < first → v.getD j 0 < x) →
      (∀ j, first + len ≤ j → j < v.length → ¬ v.getD j 0 < x) →
      first ≤ lbAux v x first len ∧ lbAux v x first len ≤ first + len ∧
      (∀ j, j < lbAux v x first len → v.getD j 0 < x) ∧
      (∀ j, lbAux v x first len ≤ j → j < v.length → ¬ v.getD j 0 < x) := by
  intro len
  induction len using Nat.strong_induction_on with
  | _ len ih =>
    intro first hlen hlo hhi
    by_cases h0 : len = 0
    · have hr : lbAux v x first len = first := by rw [lbAux, dif_pos h0]
      rw [hr]
      exact ⟨le_refl _, by omega, hlo, fun j hj hj2 => hhi j (by omega) hj2⟩
    · by_cases hmid : v.getD (first + len / 2) 0 < x
      · have hr : lbAux v x first len = lbAux v x (first + len / 2 + 1) (len - len / 2 - 1) := by
          conv_lhs => rw [lbAux]
          rw [dif_neg h0, if_pos hmid]
        have hrec := ih (len - len / 2 - 1) (by omega) (first + len / 2 + 1)
          (by omega)
          (by
            intro j hj
            exact lt_of_le_of_lt
              (sorted_getD_le v hs j (first + len / 2) (by omega) (by omega)) hmid)
          (by intro j hj hj2; exact hhi j (by omega) hj2)
        rw [hr]
        exact ⟨by omega, by omega, hrec.2.2.1, hrec.2.2.2⟩
      · have hr : lbAux v x first len = lbAux v x first (len / 2) := by
          conv_lhs => rw [lbAux]
          rw [dif_neg h0, if_neg hmid]
        have hrec := ih (len / 2) (by omega) first (by omega) hlo
          (by
            intro j hj hj2
            intro hlt
            exact hmid (lt_of_le_of_lt
              (sorted_getD_le v hs (first + len / 2) j (by omega) hj2) hlt))
        rw [hr]
        exact ⟨hrec.1, by omega, hrec.2.2.1, hrec.2.2.2⟩

/-- On a sorted range, `std::lower_bound` computes the first index whose
element is `≥ x` (its documented contract). -/
lemma lower_bound_sorted (v : List ℚ) (x : ℚ) (hs : v.Sorted (· ≤ ·)) :
    lower_bound v x = firstGe x v := by
  obtain ⟨h1, h2, h3, h4⟩ := lbAux_spec v x hs v.length 0 (by omega)
    (by intro j hj; omega) (by intro j hj hj2; omega)
  refine (firstGe_eq_of x v (lower_bound v x) (by simpa using h2) h3 ?_).symm
  intro hlt
  exact not_lt.mp (h4 _ (le_refl _) hlt)

/-- Source `value(u, n, t, f, _f)` (fms_pwflat.h:45-56): `NaN` for `u < 0`,
`_f` for an empty curve, else `std::lower_bound` over the knot times and
`f[i]` (or `_f` when the search hits the end). -/
def value (u : ℚ) (t f : List ℚ) (_f : Option ℚ) : Option ℚ :=
  if u < 0 then none
  else if t.length = 0 then _f
  else if lower_bound t u = t.length then _f
  else some (f.getD (lower_bound t u) 0)

/-- Number of iterations of the `integral` loop: the length of the longest
prefix of `t` whose entries are `≤ u` (the loop guard is `i < n && t[i] <= u`,
checked left to right). -/
def cnt (u : ℚ) : List ℚ → Nat
  | [] => 0
  | a :: l => if a ≤ u then cnt u l + 1 else 0

/-- The accumulation loop of `integral` (fms_pwflat.h:68-72): starting from
index `i` and previous time `t_`, returns the pair (accumulated `I`, final
`t_`).  `f` is the full rate array, indexed absolutely as in the source. -/
def iLoop (u : ℚ) (f : List ℚ) : List ℚ → Nat → ℚ → ℚ × ℚ
  | [], _, t_ => (0, t_)
  | a :: ts, i, t_ =>
    if a ≤ u then
      ((f.getD i 0) * (a - t_) + (iLoop u f ts (i + 1) a).1, (iLoop u f ts (i + 1) a).2)
    else (0, t_)

/-- Source `integral(u, n, t, f, _f)` (fms_pwflat.h:60-76): `NaN` for
`u < 0`, else the loop accumulation plus the final partial segment
`(n == 0 || u > t[n-1] ? _f : f[i]) * (u - t_)`, where `i` is the loop's
exit index (`cnt u t`) — so the `f[i]` read is modelled by `f.getD (cnt u t) 0`
exactly as the source indexes `f`. -/
def integral (u : ℚ) (t f : List ℚ) (_f : Option ℚ) : Option ℚ :=
  if u < 0 then none
  else
    oAdd (some (iLoop u f t 0 0).1)
      (oMul
        (if t.length = 0 ∨ t.getD (t.length - 1) 0 < u then _f
         else some (f.getD (cnt u t) 0))
        (some (u - (iLoop u f t 0 0).2)))

/-- Source `discount(u, n, t, f, _f)` (fms_pwflat.h:80-83):
`exp(-integral(u, n, t, f, _f))`, with `exp` abstract as `e`. -/
def discount (e : ℚ → ℚ) (u : ℚ) (t f : List ℚ) (_f : Option ℚ) : Option ℚ :=
  oExp e (oNeg (integral u t f _f))

/-- Source `spot(u, n, t, f, _f)` (fms_pwflat.h:87-90):
`u <= t[0] ? f[0] : integral(u, n, t, f, _f) / u`.  Note the source reads
`t[0]` and `f[0]` without checking `n`; the in-range behaviour is modelled
here with `getD`, and the bounds-safety question itself is settled by the
access-checking functions below. -/
def spot (u : ℚ) (t f : List ℚ) (_f : Option ℚ) : Option ℚ :=
  if u ≤ t.getD 0 0 then some (f.getD 0 0)
  else oDiv (integral u t f _f) (some u)

/-- Source `present_value(m, u, c, n, t, f, _f)` (fms_pwflat.h:186-194):
`p = 0; for i in [0, m): p += c[i] * discount(u[i], n, t, f, _f)`. -/
def present_value (e : ℚ → ℚ) (m : Nat) (u c t f : List ℚ) (_f : Option ℚ) : Option ℚ :=
  (List.range m).foldl
    (fun p i => oAdd p (oMul (some (c.getD i 0)) (discount e (u.getD i 0) t f _f)))
    (some 0)

/-- Source `duration(m, u, c, n, t, f, _f)` (fms_pwflat.h:198-207):
`d = 0; for i in [0, m): d -= u[i] * c[i] * discount(u[i], n, t, f, _f)`. -/
def duration (e : ℚ → ℚ) (m : Nat) (u c t f : List ℚ) (_f : Option ℚ) : Option ℚ :=
  (List.range m).foldl
    (fun d i => oSub d (oMul (oMul (some (u.getD i 0)) (some (c.getD i 0)))
      (discount e (u.getD i 0) t f _f)))
    (some 0)

/-- Source `partial_duration(m, u, c, n, t, f, _f)` (fms_pwflat.h:211-223):
`i0 = (n == 0) ? 0 : lower_bound(u, u+m, t[n-1]) - u`,
`t0 = (n == 0) ? 0 : t[n-1]`, then
`d -= (u[i] - t0) * c[i] * discount(u[i], ...)` for `i` in `[i0, m)`. -/
def partial_duration (e : ℚ → ℚ) (m : Nat) (u c t f : List ℚ) (_f : Option ℚ) : Option ℚ :=
  ((List.range m).drop
      (if t.length = 0 then 0 else lbAux u (t.getD (t.length - 1) 0) 0 m)).foldl
    (fun d i =>
      oSub d (oMul (oMul (some (u.getD i 0 - (if t.length = 0 then 0 else t.getD (t.length - 1) 0)))
        (some (c.getD i 0))) (discount e (u.getD i 0) t f _f)))
    (some 0)

/-- Bounds check for every array read `integral` performs at a given input:
the loop reads `t[i]`, `f[i]` only under the guard `i < n`, the final-term
condition reads `t[n-1]` only when `n != 0`, and the final term reads `f[i]`
at the loop's exit index `i = cnt u t` whenever `n != 0 && !(u > t[n-1])`.
Returns `false` iff some read is out of bounds. -/
def integralAccessOk (u : ℚ) (t f : List ℚ) : Bool :=
  if u < 0 then true
  else if t.length = 0 ∨ t.getD (t.length - 1) 0 < u then true
  else decide (cnt u t < f.length)

/-- Bounds check for every array read `spot` performs: it reads `t[0]`
unconditionally, then either `f[0]` (branch `u <= t[0]`) or whatever
`integral` reads. -/
def spotAccessOk (u : ℚ) (t f : List ℚ) : Bool :=
  decide (0 < t.length) &&
    (if u ≤ t.getD 0 0 then decide (0 < f.length) else integralAccessOk u t f)

/-- Source owning curve (fms_pwflat.h:142-182): two growable parallel
sequences of knot times and rates. -/
structure curve where
  t_ : List ℚ
  f_ : List ℚ
deriving DecidableEq

/-- Modelled from the spec: the contract-check `ensure` used by
`curve::push_back` is code of this repository that is not under `src/`
(only its call sites are).  Per spec §7 a violated check is "a hard failure
at the call site ... not recoverable", stopping the mutating call before any
state is stored; it is modelled as `none` on violation. -/
def ensure (b : Prop) [Decidable b] : Option Unit :=
  if b then some () else none

/-- Source `curve::push_back(_t, _f)` (fms_pwflat.h:156-164):
`ensure(t_.size() == 0 || _t > t_.back())`, then append `_t` and `_f`. -/
def push_back (c : curve) (_t _f : ℚ) : Option curve :=
  match ensure (c.t_.length = 0 ∨ c.t_.getLastD 0 < _t) with
  | none => none
  | some _ => some ⟨c.t_ ++ [_t], c.f_ ++ [_f]⟩

/-- A sequence of `push_back` calls starting from a given curve state
(failing as soon as one call fails the contract check). -/
def reach : curve → List (ℚ × ℚ) → Option curve
  | c, [] => some c
  | c, p :: ps =>
    match push_back c p.1 p.2 with
    | none => none
    | some c2 => reach c2 ps

@[simp] lemma cnt_nil (u : ℚ) : cnt u [] = 0 := rfl

lemma cnt_le_length (u : ℚ) : ∀ t : List ℚ, cnt u t ≤ t.length := by
  intro t
  induction t with
  | nil => simp
  | cons a l ih =>
    by_cases h : a ≤ u
    · rw [cnt, if_pos h, List.length_cons]; omega
    · rw [cnt, if_neg h]; omega

lemma getD_cons_eq_ite (a : ℚ) (l : List ℚ) (j : Nat) :
    (a :: l).getD j 0 = if j = 0 then a else l.getD (j - 1) 0 := by
  cases j <;> simp

/-- On a sorted knot list, the loop consumes exactly the knots `≤ u`. -/
lemma cnt_spec (u : ℚ) : ∀ (t : List ℚ), t.Sorted (· ≤ ·) →
    ∀ j, (j < cnt u t ↔ j < t.length ∧ t.getD j 0 ≤ u) := by
  intro t
  induction t with
  | nil => intro _ j; simp
  | cons a l ih =>
    intro hs j
    rw [List.sorted_cons] at hs
    by_cases h : a ≤ u
    · rw [cnt, if_pos h]
      cases j with
      | zero => simp [h]
      | succ k =>
        simp only [List.getD_cons_succ, List.length_cons]
        rw [Nat.succ_lt_succ_iff, Nat.succ_lt_succ_iff]
        exact ih hs.2 k
    · rw [cnt, if_neg h]
      simp only [Nat.not_lt_zero, false_iff, not_and]
      intro hj hle
      cases j with
      | zero => exact h (by simpa using hle)
      | succ k =>
        refine h (le_trans (hs.1 _ (getD_mem l k (by simpa using hj))) ?_)
        simpa using hle

/-- Closed form for the `integral` accumulation loop: the running sum of
`f[i] * (t[i] - previous_t)` over the consumed prefix, and the final
`previous_t`. -/
lemma iLoop_spec (u : ℚ) (f : List ℚ) :
    ∀ (ts : List ℚ) (i : Nat) (t0 : ℚ),
      (iLoop u f ts i t0).1 = (∑ j ∈ Finset.range (cnt u ts),
          f.getD (i + j) 0 * (ts.getD j 0 - (if j = 0 then t0 else ts.getD (j - 1) 0))) ∧
      (iLoop u f ts i t0).2 = (if cnt u ts = 0 then t0 else ts.getD (cnt u ts - 1) 0) := by
  intro ts
  induction ts with
  | nil => intro i t0; simp [iLoop]
  | cons a l ih =>
    intro i t0
    by_cases h : a ≤ u
    · obtain ⟨ih1, ih2⟩ := ih (i + 1) a
      rw [iLoop, if_pos h]
      constructor
      · rw [cnt, if_pos h, Finset.sum_range_succ', ih1]
        simp only [Nat.add_zero, List.getD_cons_zero, if_pos rfl]
        rw [add_comm (f.getD i 0 * (a - t0))]
        congr 1
        refine Finset.sum_congr rfl ?_
        intro j _
        have hidx : i + (j + 1) = i + 1 + j := by omega
        rw [hidx, List.getD_cons_succ, Nat.add_sub_cancel, getD_cons_eq_ite]
        simp
      · rw [cnt, if_pos h, ih2, Nat.add_sub_cancel]
        have hne : cnt u l + 1 ≠ 0 := by omega
        rw [if_neg hne, getD_cons_eq_ite]
    · rw [iLoop, if_neg h, cnt, if_neg h]
      simp

/-- On a sorted knot list, the knots `≤ u` are an initial segment. -/
lemma filter_le_eq_take (u : ℚ) : ∀ (t : List ℚ), t.Sorted (· ≤ ·) →
    t.filter (fun a => decide (a ≤ u)) = t.take (cnt u t) := by
  intro t
  induction t with
  | nil => intro _; simp
  | cons a l ih =>
    intro hs
    rw [List.sorted_cons] at hs
    by_cases h : a ≤ u
    · rw [cnt, if_pos h, List.take_succ_cons, List.filter_cons,
        if_pos (by simpa using h), ih hs.2]
    · rw [cnt, if_neg h, List.take_zero, List.filter_cons, if_neg (by simpa using h)]
      rw [List.filter_eq_nil_iff]
      intro b hb hbu
      exact h (le_trans (hs.1 b hb) (by simpa using hbu))

lemma getLast?_take : ∀ (t : List ℚ) (k : Nat), 0 < k → k ≤ t.length →
    (t.take k).getLast? = some (t.getD (k - 1) 0) := by
  intro t
  induction t with
  | nil => intro k hk hlen; simp at hlen; omega
  | cons a l ih =>
    intro k hk hlen
    cases k with
    | zero => omega
    | succ m =>
      rw [List.take_succ_cons, Nat.add_sub_cancel]
      cases m with
      | zero => simp
      | succ s =>
        have hm : s + 1 ≤ l.length := by simpa using hlen
        obtain ⟨b, l2, rfl⟩ : ∃ b l2, l = b :: l2 := by
          cases l with
          | nil => simp at hm
          | cons b l2 => exact ⟨b, l2, rfl⟩
        rw [List.take_succ_cons, List.getLast?_cons_cons, ← List.take_succ_cons]
        rw [ih (s + 1) (Nat.succ_pos s) hm, Nat.add_sub_cancel]
        simp

/-- Claim-side per-knot summand `f[j] * (t[j] - t[j-1])`, with `t[-1] = 0`. -/
def segTerm (t f : List ℚ) (j : Nat) : ℚ :=
  f.getD j 0 * (t.getD j 0 - (if j = 0 then 0 else t.getD (j - 1) 0))

/-- Claim-side main sum: the summands of all knots with `t[j] ≤ u`. -/
def knotSum (u : ℚ) (t f : List ℚ) : ℚ :=
  ∑ j ∈ Finset.range t.length, if t.getD j 0 ≤ u then segTerm t f j else 0

/-- Claim-side "last consumed knot time": the last knot `≤ u`, or `0`. -/
def lastKnotLE (u : ℚ) (t : List ℚ) : ℚ :=
  (t.filter (fun a => decide (a ≤ u))).getLastD 0

lemma knotSum_eq_cntSum (u : ℚ) (t f : List ℚ) (hs : t.Sorted (· ≤ ·)) :
    knotSum u t f = ∑ j ∈ Finset.range (cnt u t), segTerm t f j := by
  rw [knotSum,
    ← Finset.sum_subset (Finset.range_subset.mpr (cnt_le_length u t))]
  · exact Finset.sum_congr rfl
      (fun j hj => if_pos ((cnt_spec u t hs j).mp (Finset.mem_range.mp hj)).2)
  · intro j hjn hjc
    rw [if_neg]
    intro hle
    exact hjc (Finset.mem_range.mpr
      ((cnt_spec u t hs j).mpr ⟨Finset.mem_range.mp hjn, hle⟩))

lemma lastKnotLE_eq (u : ℚ) (t : List ℚ) (hs : t.Sorted (· ≤ ·)) :
    lastKnotLE u t = if cnt u t = 0 then 0 else t.getD (cnt u t - 1) 0 := by
  rw [lastKnotLE, filter_le_eq_take u t hs]
  by_cases h0 : cnt u t = 0
  · rw [if_pos h0, h0]
    simp
  · rw [if_neg h0, List.getLastD_eq_getLast?,
      getLast?_take t (cnt u t) (Nat.pos_of_ne_zero h0) (cnt_le_length u t)]
    rfl

lemma foldl_oAdd (g : Nat → Option ℚ) :
    ∀ (l : List Nat) (init : Option ℚ),
      l.foldl (fun p i => oAdd p (g i)) init = oAdd init (oSum (l.map g)) := by
  intro l
  induction l with
  | nil => intro init; cases init <;> simp
  | cons x xs ih =>
    intro init
    rw [List.foldl_cons, ih, List.map_cons, oSum_cons]
    cases init with
    | none => simp
    | some a =>
      cases hgx : g x with
      | none => simp
      | some b =>
        cases hS : oSum (xs.map g) with
        | none => simp
        | some s => simp [add_assoc]

lemma foldl_oSub (g : Nat → Option ℚ) :
    ∀ (l : List Nat) (init : Option ℚ),
      l.foldl (fun p i => oSub p (g i)) init = oSub init (oSum (l.map g)) := by
  intro l
  induction l with
  | nil => intro init; cases init <;> simp
  | cons x xs ih =>
    intro init
    rw [List.foldl_cons, ih, List.map_cons, oSum_cons]
    cases init with
    | none => simp
    | some a =>
      cases hgx : g x with
      | none => simp
      | some b =>
        cases hS : oSum (xs.map g) with
        | none => simp
        | some s =>
          simp only [oSub_some_some, oAdd_some_some]
          exact congrArg some (by ring)

lemma oSum_eq_none (l : List (Option ℚ)) (h : none ∈ l) : oSum l = none := by
  induction l with
  | nil => simp at h
  | cons a xs ih =>
    rcases List.mem_cons.mp h with h1 | h2
    · rw [oSum_cons, ← h1]; simp
    · rw [oSum_cons, ih h2]; simp

lemma oSum_map_neg (g : Nat → Option ℚ) : ∀ l : List Nat,
    oSum (l.map (fun i => oSub (some 0) (g i))) = oSub (some 0) (oSum (l.map g)) := by
  intro l
  induction l with
  | nil => simp
  | cons x xs ih =>
    rw [List.map_cons, oSum_cons, ih, List.map_cons, oSum_cons]
    cases g x with
    | none => simp
    | some a =>
      cases oSum (xs.map g) with
      | none => simp
      | some s =>
        simp only [oSub_some_some, oAdd_some_some]
        exact congrArg some (by ring)

lemma monotonic_iff : ∀ l : List ℚ,
    (monotonic l = true ↔ ∀ i, i + 1 < l.length → l.getD i 0 < l.getD (i + 1) 0) := by
  intro l
  induction l with
  | nil => simp [monotonic]
  | cons x xs ih =>
    cases xs with
    | nil => simp [monotonic]
    | cons y ys =>
      rw [monotonic]
      by_cases h : x ≥ y
      · rw [if_pos h]
        constructor
        · intro hf; exact absurd hf (by simp)
        · intro hall
          have h0 := hall 0 (by simp)
          simp only [List.getD_cons_zero, List.getD_cons_succ] at h0
          exact absurd h0 (not_lt.mpr h)
      · rw [if_neg h, ih]
        constructor
        · intro hall i hi
          cases i with
          | zero => exact lt_of_not_ge h
          | succ k => exact hall k (by simpa using hi)
        · intro hall i hi
          exact hall (i + 1) (by simpa using hi)

/-- Claim C10: the monotonic predicate is true iff the sequence is strictly
increasing (every adjacent pair increases); the empty and one-element
sequences yield true, and any adjacent non-increasing pair yields false. -/
theorem monotonic_strictly_increasing (l : List ℚ) :
    (monotonic l = true ↔ ∀ i, i + 1 < l.length → l.getD i 0 < l.getD (i + 1) 0) ∧
    monotonic [] = true ∧
    (∀ x : ℚ, monotonic [x] = true) ∧
    (∀ i, i + 1 < l.length → l.getD (i + 1) 0 ≤ l.getD i 0 → monotonic l = false) := by
  refine ⟨monotonic_iff l, rfl, fun x => rfl, ?_⟩
  intro i hi hle
  cases hm : monotonic l with
  | false => rfl
  | true =>
    have := ((monotonic_iff l).mp hm) i hi
    exact absurd this (not_lt.mpr hle)

/-- Claim C10 witness: concrete instances of the characterisation. -/
theorem monotonic_strictly_increasing_witness :
    monotonic [] = true ∧ monotonic [(2 : ℚ), 1] = false := by
  refine ⟨(monotonic_strictly_increasing []).2.1, ?_⟩
  exact (monotonic_strictly_increasing [(2 : ℚ), 1]).2.2.2 0 (by simp) (by norm_num)

/-- Claim C6: `value` returns NaN for `u < 0`; `_f` for an empty curve;
otherwise `f[i]` for the smallest index `i` with `t[i] ≥ u`, and `_f` when no
such index exists, which on a strictly increasing knot list happens exactly
when `u > t[n-1]`; and the boundary is right-closed: `value(t[i]) = f[i]`
exactly, for every knot index `i` (knot times are non-negative per the data
model, so `t[i]` is never cut off by the negative-time guard). -/
theorem value_spec (u : ℚ) (t f : List ℚ) (hs : t.Sorted (· < ·))
    (hnn : ∀ a ∈ t, 0 ≤ a) (_f : Option ℚ) :
    (u < 0 → value u t f _f = none) ∧
    (0 ≤ u → t.length = 0 → value u t f _f = _f) ∧
    (0 ≤ u → 0 < t.length →
      (firstGe u t < t.length → value u t f _f = some (f.getD (firstGe u t) 0)) ∧
      (firstGe u t = t.length → value u t f _f = _f) ∧
      (firstGe u t = t.length ↔ t.getD (t.length - 1) 0 < u)) ∧
    (∀ i, i < t.length → value (t.getD i 0) t f _f = some (f.getD i 0)) := by
  have hsle : t.Sorted (· ≤ ·) := hs.imp (fun h => le_of_lt h)
  refine ⟨?_, ?_, ?_, ?_⟩
  · intro h
    simp only [value, if_pos h]
  · intro hu h0
    simp only [value, if_neg (not_lt.mpr hu), if_pos h0]
  · intro hu hpos
    refine ⟨?_, ?_, ?_, ?_⟩
    · intro hlt
      simp only [value, lower_bound_sorted t u hsle]
      rw [if_neg (not_lt.mpr hu), if_neg (by omega : ¬ t.length = 0),
        if_neg (by omega : ¬ firstGe u t = t.length)]
    · intro heq
      simp only [value, lower_bound_sorted t u hsle]
      rw [if_neg (not_lt.mpr hu), if_neg (by omega : ¬ t.length = 0), if_pos heq]
    · intro heq
      exact firstGe_lt u t (t.length - 1) (by omega)
    · intro hlast
      have h1 := firstGe_le_length u t
      rcases lt_or_eq_of_le h1 with h2 | h2
      · exfalso
        have h3 := firstGe_ge u t h2
        have h4 := sorted_getD_le t hsle (firstGe u t) (t.length - 1) (by omega) (by omega)
        exact absurd (le_trans h3 h4) (not_le.mpr hlast)
      · exact h2
  · intro i hi
    have hu0 : 0 ≤ t.getD i 0 := hnn _ (getD_mem t i hi)
    have hfg : firstGe (t.getD i 0) t = i :=
      firstGe_eq_of _ t i (le_of_lt hi)
        (fun j hj => sorted_getD_lt t hs j i hj hi) (fun _ => le_refl _)
    simp only [value, lower_bound_sorted t _ hsle, hfg]
    rw [if_neg (not_lt.mpr hu0), if_neg (by omega : ¬ t.length = 0),
      if_neg (by omega : ¬ i = t.length)]

/-- Claim C6 witness: on the curve t = [1, 2], f = [7, 9], the boundary value
`value(t[0]) = f[0]` holds exactly. -/
theorem value_spec_witness : value 1 [1, 2] [7, 9] none = some 7 :=
  (value_spec 0 [1, 2] [7, 9] (by decide) (by decide) none).2.2.2 0 (by decide)

/-- Claim C5: for a strictly increasing non-negative knot list and `u ≥ 0`,
`integral u` is the sum of `f[j] * (t[j] - t[j-1])` (`t[-1] = 0`) over all
knots with `t[j] ≤ u`, plus a final partial segment `u - (last consumed knot
time)` priced at `_f` when `u` is beyond the curve or the curve is empty, and
at the rate `f[firstGe u t]` of the knot whose half-open interval contains `u`
otherwise; at a knot, `integral(t[i])` is exactly the prefix sum through `i`;
and on an empty curve `integral(u) = _f * u`. -/
theorem integral_spec (u : ℚ) (t f : List ℚ) (hf : f.length = t.length)
    (hs : t.Sorted (· < ·)) (hnn : ∀ a ∈ t, 0 ≤ a) (hu : 0 ≤ u) (_f : Option ℚ) :
    integral u t f _f =
      oAdd (some (knotSum u t f))
        (oMul (if t.length = 0 ∨ t.getD (t.length - 1) 0 < u then _f
               else some (f.getD (firstGe u t) 0))
          (some (u - lastKnotLE u t))) ∧
    (∀ i, i < t.length →
      integral (t.getD i 0) t f _f = some (∑ j ∈ Finset.range (i + 1), segTerm t f j)) ∧
    (t.length = 0 → integral u t f _f = oMul _f (some u)) := by
  have hsle : t.Sorted (· ≤ ·) := hs.imp (fun h => le_of_lt h)
  have hI : ∀ w : ℚ, (iLoop w f t 0 0).1 = knotSum w t f := by
    intro w
    rw [(iLoop_spec w f t 0 0).1, knotSum_eq_cntSum w t f hsle]
    exact Finset.sum_congr rfl (fun j _ => by rw [zero_add]; rfl)
  have hT : ∀ w : ℚ, (iLoop w f t 0 0).2 = lastKnotLE w t := by
    intro w
    rw [(iLoop_spec w f t 0 0).2, lastKnotLE_eq w t hsle]
  refine ⟨?_, ?_, ?_⟩
  · by_cases hbr : t.length = 0 ∨ t.getD (t.length - 1) 0 < u
    · simp only [integral, if_neg (not_lt.mpr hu), if_pos hbr, hI, hT]
    · push_neg at hbr
      have hn : 0 < t.length := by omega
      have hlast : u ≤ t.getD (t.length - 1) 0 := hbr.2
      have hsn : firstGe u t < t.length := by
        rcases lt_or_eq_of_le (firstGe_le_length u t) with h2 | h2
        · exact h2
        · exfalso
          have := firstGe_lt u t (t.length - 1) (by omega)
          exact absurd hlast (not_le.mpr this)
      have husle : u ≤ t.getD (firstGe u t) 0 := firstGe_ge u t hsn
      rcases eq_or_lt_of_le husle with heq | hlt
      · -- u hits the knot t[firstGe u t] exactly: the final factor is zero
        have hcnt : cnt u t = firstGe u t + 1 := by
          have hlo : firstGe u t < cnt u t :=
            (cnt_spec u t hsle _).mpr ⟨hsn, le_of_eq heq.symm⟩
          have hhi : cnt u t ≤ firstGe u t + 1 := by
            by_contra hcon
            push_neg at hcon
            have h4 : firstGe u t + 1 < t.length :=
              lt_of_lt_of_le hcon (cnt_le_length u t)
            have h5 := ((cnt_spec u t hsle _).mp hcon).2
            have h6 := sorted_getD_lt t hs (firstGe u t) (firstGe u t + 1) (by omega) h4
            rw [← heq] at h6
            exact absurd h5 (not_le.mpr h6)
          omega
        have hlk : lastKnotLE u t = u := by
          rw [lastKnotLE_eq u t hsle, hcnt, if_neg (Nat.succ_ne_zero _),
            Nat.add_sub_cancel, ← heq]
        have hcond : ¬ (t.length = 0 ∨ t.getD (t.length - 1) 0 < u) := by
          push_neg
          exact ⟨by omega, hlast⟩
        simp only [integral, if_neg (not_lt.mpr hu), hI, hT, hlk, if_neg hcond]
        rw [sub_self]
        simp
      · -- u lies strictly inside the interval of knot firstGe u t
        have hcnt : cnt u t = firstGe u t := by
          have h1 : cnt u t ≤ firstGe u t := by
            by_contra hcon
            push_neg at hcon
            have := ((cnt_spec u t hsle _).mp hcon).2
            exact absurd this (not_le.mpr hlt)
          have h2 : firstGe u t ≤ cnt u t := by
            by_contra hcon
            push_neg at hcon
            have h3 := firstGe_lt u t (cnt u t) hcon
            have := (cnt_spec u t hsle (cnt u t)).mpr
              ⟨lt_of_lt_of_le hcon (le_of_lt hsn), le_of_lt h3⟩
            omega
          omega
        simp only [integral, if_neg (not_lt.mpr hu), hI, hT, hcnt]
  · intro i hi
    have hu0 : 0 ≤ t.getD i 0 := hnn _ (getD_mem t i hi)
    have hcnt : cnt (t.getD i 0) t = i + 1 := by
      have hlo : i < cnt (t.getD i 0) t :=
        (cnt_spec _ t hsle i).mpr ⟨hi, le_refl _⟩
      have hhi : cnt (t.getD i 0) t ≤ i + 1 := by
        by_contra hcon
        push_neg at hcon
        have h4 : i + 1 < t.length := lt_of_lt_of_le hcon (cnt_le_length _ t)
        have h5 := ((cnt_spec _ t hsle _).mp hcon).2
        have h6 := sorted_getD_lt t hs i (i + 1) (by omega) h4
        exact absurd h5 (not_le.mpr h6)
      omega
    have hbr : ¬ (t.length = 0 ∨ t.getD (t.length - 1) 0 < t.getD i 0) := by
      push_neg
      refine ⟨by omega, ?_⟩
      rcases eq_or_lt_of_le (by omega : i ≤ t.length - 1) with h2 | h2
      · rw [h2]
      · exact le_of_lt (sorted_getD_lt t hs i (t.length - 1) h2 (by omega))
    have hlk : lastKnotLE (t.getD i 0) t = t.getD i 0 := by
      rw [lastKnotLE_eq _ t hsle, hcnt, if_neg (Nat.succ_ne_zero _), Nat.add_sub_cancel]
    simp only [integral, if_neg (not_lt.mpr hu0), if_neg hbr, hI, hT, hlk]
    rw [knotSum_eq_cntSum _ t f hsle, hcnt, sub_self]
    simp
  · intro h0
    rw [List.length_eq_zero] at h0
    subst h0
    have hcond : ([] : List ℚ).length = 0 ∨ ([] : List ℚ).getD (([] : List ℚ).length - 1) 0 < u :=
      Or.inl rfl
    simp only [integral, if_neg (not_lt.mpr hu), iLoop, if_pos hcond]
    cases _f with
    | none => simp
    | some x =>
      simp only [oMul_some_some, oAdd_some_some]
      exact congrArg some (by ring)

/-- Claim C5 witness: on the curve t = [1, 2], f = [3, 4], the integral at
the last knot is the full prefix sum 3·1 + 4·1 = 7. -/
theorem integral_spec_witness : integral 2 [1, 2] [3, 4] none = some 7 := by
  have h := (integral_spec 2 [1, 2] [3, 4] (by decide) (by decide) (by decide)
    (by decide) none).2.1 1 (by decide)
  refine Eq.trans (by exact h) ?_
  rw [Finset.sum_range_succ, Finset.sum_range_succ, Finset.sum_range_zero]
  norm_num [segTerm]

/-- Claim C7: for a curve with at least one knot, non-negative strictly
increasing knot times and `0 ≤ u`, `spot` returns `f[0]` through the
special-case branch when `u ≤ t[0]` (no division involved), and
`integral(u) / u` when `u > t[0]`. -/
theorem spot_spec (u : ℚ) (t f : List ℚ) (hn : 0 < t.length)
    (hs : t.Sorted (· < ·)) (hnn : ∀ a ∈ t, 0 ≤ a) (hu : 0 ≤ u) (_f : Option ℚ) :
    (u ≤ t.getD 0 0 → spot u t f _f = some (f.getD 0 0)) ∧
    (t.getD 0 0 < u → spot u t f _f = oDiv (integral u t f _f) (some u)) := by
  constructor
  · intro h
    simp only [spot, if_pos h]
  · intro h
    simp only [spot, if_neg (not_le.mpr h)]

/-- Claim C7 witness: `spot(1)` on the curve t = [2], f = [5] returns `f[0]`. -/
theorem spot_spec_witness : spot 1 [2] [5] none = some 5 :=
  (spot_spec 1 [2] [5] (by decide) (by decide) (by decide) (by decide) none).1 (by decide)

/-- Claim C1 counterexample: on the curve t = [1], f = [7], the query
`spot(-1)` returns `f[0] = 7` — not the NaN sentinel the claim requires
(the repository's own test asserts this behaviour at `u = -0.5`). -/
theorem spot_negative_counterexample :
    spot (-1) [1] [7] none = some 7 ∧ spot (-1) [1] [7] none ≠ none := by
  have h : spot (-1) [1] [7] none = some 7 := by norm_num [spot]
  exact ⟨h, by rw [h]; exact Option.some_ne_none 7⟩

/-- Claim C1 amended: for every curve with at least one knot and every
`u < 0`, `spot` returns `f[0]` whenever `u ≤ t[0]` — which is always the
case for the data model's non-negative knots — and the NaN sentinel
otherwise; the `u ≤ t[0]` special-case branch catches negative query times
before the (undefined) integral is consulted.  (With `n = 0` the source
reads `t[0]` out of bounds; see the bounds-safety claim.) -/
theorem spot_negative_amended (u : ℚ) (t f : List ℚ) (hn : 0 < t.length)
    (hu : u < 0) (_f : Option ℚ) :
    spot u t f _f = if u ≤ t.getD 0 0 then some (f.getD 0 0) else none := by
  by_cases h : u ≤ t.getD 0 0
  · simp only [spot, if_pos h]
  · simp only [spot, if_neg h, integral, if_pos hu, oDiv_none_left]

/-- Claim C1 amended, witness: `spot(-1)` on t = [2], f = [9] returns 9. -/
theorem spot_negative_amended_witness : spot (-1) [2] [9] (some 5) = some 9 := by
  rw [spot_negative_amended (-1) [2] [9] (by decide) (by decide) (some 5)]
  norm_num

/-- Claim C2 is violated by the code: at `u = t[n-1]` (here n = 1, t = [1],
f = [5]) the final term of `integral` reads `f[n]`, one element past the end
of the rate array, and `spot` on an empty curve (n = 0) reads `t[0]`; the
access-checking mirrors of the two kernels report both out-of-bounds reads. -/
theorem kernel_access_violations :
    integralAccessOk 1 [1] [5] = false ∧ spotAccessOk 1 [] [] = false := by
  constructor
  · norm_num [integralAccessOk, cnt]
  · norm_num [spotAccessOk]

lemma oAdd_zero_left (x : Option ℚ) : oAdd (some 0) x = x := by
  cases x <;> simp

/-- Claim C9: `present_value` is the NaN-propagating sum of
`c[i] * discount(u[i])` over the `m` cash flows, and a single undefined
discount factor makes the whole total undefined. -/
theorem present_value_spec (e : ℚ → ℚ) (m : Nat) (u c t f : List ℚ)
    (hm : u.length = m) (hc : c.length = m) (_f : Option ℚ) :
    present_value e m u c t f _f =
      oSum ((List.range m).map
        (fun i => oMul (some (c.getD i 0)) (discount e (u.getD i 0) t f _f))) ∧
    ((∃ i, i < m ∧ discount e (u.getD i 0) t f _f = none) →
      present_value e m u c t f _f = none) := by
  have h1 : present_value e m u c t f _f =
      oSum ((List.range m).map
        (fun i => oMul (some (c.getD i 0)) (discount e (u.getD i 0) t f _f))) := by
    rw [present_value, foldl_oAdd, oAdd_zero_left]
  refine ⟨h1, ?_⟩
  rintro ⟨i, him, hdi⟩
  rw [h1]
  apply oSum_eq_none
  rw [List.mem_map]
  refine ⟨i, List.mem_range.mpr him, ?_⟩
  rw [hdi, oMul_none_right]

/-- Claim C9 witness: one cash flow of 2 at time 5, flat curve t = [1],
f = [0] with extrapolation 0 and `exp` instantiated at the constant-1
function: the present value is 2·1 = 2. -/
theorem present_value_spec_witness :
    present_value (fun _ => 1) 1 [5] [2] [1] [0] (some 0) = some 2 := by
  rw [(present_value_spec (fun _ => 1) 1 [5] [2] [1] [0] rfl rfl (some 0)).1]
  norm_num [List.range_succ, discount, integral, iLoop, cnt, oExp, oNeg]

/-- Claim C4 counterexample: with the curve t = [1], f = [0] (extrapolation
rate 0, `exp` instantiated at the constant-1 function) and the unsorted
cash-flow times u = [2, 0], c = [1, 3], the binary search
`std::lower_bound(u, u+2, 1)` lands at index 2, so `partial_duration`
returns 0, while the claimed sum over the cash flows from the first index
`i0` with `u[i0] ≥ t[n-1] = 1` onward (that is, from index 0) is
`-(2-1)·1·1 + -(0-1)·3·1 = 2`. -/
theorem partial_duration_counterexample :
    partial_duration (fun _ => 1) 2 [2, 0] [1, 3] [1] [0] (some 0) = some 0 ∧
    oSum (((List.range 2).drop (firstGe 1 [2, 0])).map
      (fun i => oMul (oMul (some (-([(2 : ℚ), 0].getD i 0 - 1)))
        (some ([(1 : ℚ), 3].getD i 0)))
        (discount (fun _ => 1) ([(2 : ℚ), 0].getD i 0) [1] [0] (some 0)))) = some 2 := by
  constructor
  · have h : lbAux [2, 0] 1 0 2 = 2 := by
      rw [lbAux]
      norm_num [List.getD]
      rw [lbAux]
      norm_num
    norm_num [partial_duration, h, List.range_succ]
  · norm_num [firstGe, List.range_succ, discount, integral, iLoop, cnt, oExp, oNeg]

/-- Claim C4 amended (the cash-flow times must be sorted, as required by the
lower-bound search the code performs): for a curve with `n ≥ 1` strictly
increasing non-negative knots and non-decreasing cash-flow times,
`partial_duration` equals the NaN-propagating sum of
`-(u[i] - t[n-1]) * c[i] * discount(u[i])` over the cash flows from the
first index `i0` with `u[i0] ≥ t[n-1]` onward; every cash flow before `i0`
has `u[i] < t[n-1]` (so it contributes nothing), a cash flow exactly at
`t[n-1]` contributes the term `some 0`, and for `n = 0` the shift origin
`t[n-1]` is replaced by `0` and all cash flows are included. -/
theorem partial_duration_amended (e : ℚ → ℚ) (m : Nat) (u c t f : List ℚ)
    (hm : u.length = m) (hc : c.length = m) (hn : 0 < t.length)
    (hs : t.Sorted (· < ·)) (hnn : ∀ a ∈ t, 0 ≤ a) (hus : u.Sorted (· ≤ ·))
    (_f : Option ℚ) :
    (partial_duration e m u c t f _f =
      oSum (((List.range m).drop (firstGe (t.getD (t.length - 1) 0) u)).map
        (fun i => oMul (oMul (some (-(u.getD i 0 - t.getD (t.length - 1) 0)))
          (some (c.getD i 0))) (discount e (u.getD i 0) t f _f)))) ∧
    (∀ j, j < firstGe (t.getD (t.length - 1) 0) u →
      u.getD j 0 < t.getD (t.length - 1) 0) ∧
    (∀ j, j < m → u.getD j 0 = t.getD (t.length - 1) 0 →
      oMul (oMul (some (-(u.getD j 0 - t.getD (t.length - 1) 0)))
        (some (c.getD j 0))) (discount e (u.getD j 0) t f _f) = some 0) ∧
    (∀ (u2 c2 : List ℚ), u2.length = m → c2.length = m →
      partial_duration e m u2 c2 [] [] _f =
        oSum ((List.range m).map
          (fun i => oMul (oMul (some (-(u2.getD i 0 - 0))) (some (c2.getD i 0)))
            (discount e (u2.getD i 0) [] [] _f)))) := by
  have hlen0 : ¬ t.length = 0 := by omega
  refine ⟨?_, ?_, ?_, ?_⟩
  · have hlb : lbAux u (t.getD (t.length - 1) 0) 0 m =
        firstGe (t.getD (t.length - 1) 0) u := by
      rw [← hm]
      exact lower_bound_sorted u (t.getD (t.length - 1) 0) hus
    simp only [partial_duration, if_neg hlen0, hlb]
    rw [foldl_oSub, ← oSum_map_neg]
    refine congrArg oSum (List.map_congr_left ?_)
    intro i _
    cases hD : discount e (u.getD i 0) t f _f with
    | none => simp
    | some d =>
      simp only [oMul_some_some, oSub_some_some]
      exact congrArg some (by ring)
  · intro j hj
    exact firstGe_lt (t.getD (t.length - 1) 0) u j hj
  · intro j _ huj
    have hx0 : 0 ≤ t.getD (t.length - 1) 0 :=
      hnn _ (getD_mem t (t.length - 1) (by omega))
    have hcond : ¬ (t.length = 0 ∨ t.getD (t.length - 1) 0 < t.getD (t.length - 1) 0) := by
      push_neg
      exact ⟨hlen0, le_refl _⟩
    have hint : integral (t.getD (t.length - 1) 0) t f _f =
        some ((iLoop (t.getD (t.length - 1) 0) f t 0 0).1 +
          f.getD (cnt (t.getD (t.length - 1) 0) t) 0 *
            (t.getD (t.length - 1) 0 - (iLoop (t.getD (t.length - 1) 0) f t 0 0).2)) := by
      simp only [integral, if_neg (not_lt.mpr hx0), if_neg hcond, oMul_some_some,
        oAdd_some_some]
    rw [huj, discount, hint]
    simp only [oNeg_some, oExp_some, oMul_some_some]
    exact congrArg some (by ring)
  · intro u2 c2 _ _
    have ht0 : (if ([] : List ℚ).length = 0 then (0 : ℚ)
        else ([] : List ℚ).getD (([] : List ℚ).length - 1) 0) = 0 := if_pos rfl
    have hi0 : (if ([] : List ℚ).length = 0 then 0
        else lbAux u2 (([] : List ℚ).getD (([] : List ℚ).length - 1) 0) 0 m) = 0 :=
      if_pos rfl
    simp only [partial_duration, ht0, hi0, List.drop_zero]
    rw [foldl_oSub, ← oSum_map_neg]
    refine congrArg oSum (List.map_congr_left ?_)
    intro i _
    cases hD : discount e (u2.getD i 0) [] [] _f with
    | none => simp
    | some d =>
      simp only [oMul_some_some, oSub_some_some]
      exact congrArg some (by ring)

/-- Claim C4 amended, witness: one cash flow of 1 at time 2 on the curve
t = [1], f = [0] with extrapolation rate 0 and `exp` the constant-1
function: the partial duration is `-(2-1)·1·1 = -1`. -/
theorem partial_duration_amended_witness :
    partial_duration (fun _ => 1) 1 [2] [1] [1] [0] (some 0) = some (-1) := by
  rw [(partial_duration_amended (fun _ => 1) 1 [2] [1] [1] [0] rfl rfl (by decide)
    (by decide) (by decide) (by decide) (some 0)).1]
  norm_num [firstGe, List.range_succ, discount, integral, iLoop, cnt, oExp, oNeg]

lemma push_back_eq (c : curve) (tn fn : ℚ) :
    push_back c tn fn = if c.t_.length = 0 ∨ c.t_.getLastD 0 < tn
      then some ⟨c.t_ ++ [tn], c.f_ ++ [fn]⟩ else none := by
  by_cases h : c.t_.length = 0 ∨ c.t_.getLastD 0 < tn
  · rw [if_pos h, push_back, ensure, if_pos h]
  · rw [if_neg h, push_back, ensure, if_neg h]

lemma reach_chain : ∀ (ps : List (ℚ × ℚ)) (c : curve), List.Chain' (· < ·) c.t_ →
    ∀ c2, reach c ps = some c2 → List.Chain' (· < ·) c2.t_ := by
  intro ps
  induction ps with
  | nil =>
    intro c hc c2 h
    rw [reach] at h
    exact (Option.some.inj h) ▸ hc
  | cons p ps ih =>
    intro c hc c2 h
    rw [reach] at h
    cases hpb : push_back c p.1 p.2 with
    | none => rw [hpb] at h; exact Option.noConfusion h
    | some c3 =>
      rw [hpb] at h
      refine ih c3 ?_ c2 h
      rw [push_back_eq] at hpb
      by_cases hcond : c.t_.length = 0 ∨ c.t_.getLastD 0 < p.1
      · rw [if_pos hcond] at hpb
        obtain rfl : (⟨c.t_ ++ [p.1], c.f_ ++ [p.2]⟩ : curve) = c3 := Option.some.inj hpb
        rw [List.chain'_append]
        refine ⟨hc, List.chain'_singleton _, ?_⟩
        intro x hx y hy
        have hy1 : y = p.1 := by
          simp only [List.head?_cons, Option.mem_def, Option.some.injEq] at hy
          exact hy.symm
        rcases hcond with h0 | hlt
        · rw [List.length_eq_zero] at h0
          rw [h0] at hx
          exact Option.noConfusion (Option.mem_def.mp hx)
        · have hxx : c.t_.getLastD 0 = x := by
            rw [List.getLastD_eq_getLast?, Option.mem_def.mp hx]
            rfl
          rw [hy1, ← hxx]
          exact hlt
      · rw [if_neg hcond] at hpb
        exact Option.noConfusion hpb

/-- Claim C8: `push_back` fails the contract check iff the curve is
non-empty and the new time is not strictly greater than the current last
time (so an equal time fails, a strictly greater time succeeds); on success
the pair is appended (and on failure no new state is produced, the curve
being left as it was); consequently every owning curve reachable from the
empty curve by appends has strictly increasing knot times. -/
theorem push_back_spec (c : curve) (tn fn : ℚ) :
    (push_back c tn fn = none ↔ c.t_ ≠ [] ∧ tn ≤ c.t_.getLastD 0) ∧
    (∀ c2, push_back c tn fn = some c2 →
      c2.t_ = c.t_ ++ [tn] ∧ c2.f_ = c.f_ ++ [fn]) ∧
    (c.t_ ≠ [] → push_back c (c.t_.getLastD 0) fn = none) ∧
    (c.t_.getLastD 0 < tn → push_back c tn fn = some ⟨c.t_ ++ [tn], c.f_ ++ [fn]⟩) ∧
    (∀ ps c2, reach ⟨[], []⟩ ps = some c2 → List.Chain' (· < ·) c2.t_) := by
  refine ⟨?_, ?_, ?_, ?_, ?_⟩
  · rw [push_back_eq]
    by_cases h : c.t_.length = 0 ∨ c.t_.getLastD 0 < tn
    · rw [if_pos h]
      constructor
      · intro hcontra
        exact Option.noConfusion hcontra
      · rintro ⟨h1, h2⟩
        rcases h with h0 | hlt
        · exact absurd (List.length_eq_zero.mp h0) h1
        · exact absurd h2 (not_le.mpr hlt)
    · rw [if_neg h]
      push_neg at h
      exact iff_of_true rfl
        ⟨fun hnil => h.1 (by rw [hnil]; rfl), h.2⟩
  · intro c2 h2
    rw [push_back_eq] at h2
    by_cases h : c.t_.length = 0 ∨ c.t_.getLastD 0 < tn
    · rw [if_pos h] at h2
      obtain rfl : (⟨c.t_ ++ [tn], c.f_ ++ [fn]⟩ : curve) = c2 := Option.some.inj h2
      exact ⟨rfl, rfl⟩
    · rw [if_neg h] at h2
      exact Option.noConfusion h2
  · intro hne
    rw [push_back_eq, if_neg]
    push_neg
    refine ⟨?_, le_refl _⟩
    intro h0
    exact hne (List.length_eq_zero.mp h0)
  · intro hlt
    rw [push_back_eq, if_pos (Or.inr hlt)]
  · intro ps c2 h
    exact reach_chain ps ⟨[], []⟩ (by simp) c2 h

/-- Claim C8 witness: appending time 2 to a curve whose last time is 2
fails, appending time 3 succeeds and appends the pair. -/
theorem push_back_spec_witness :
    push_back ⟨[2], [5]⟩ 2 7 = none ∧
    push_back ⟨[2], [5]⟩ 3 7 = some ⟨[2, 3], [5, 7]⟩ := by
  constructor
  · exact (push_back_spec ⟨[2], [5]⟩ 2 7).1.mpr ⟨by decide, by decide⟩
  · exact (push_back_spec ⟨[2], [5]⟩ 3 7).2.2.2.1 (by decide)

end pwflat

end fms
